import Mathlib

/-!
# Verification of the finite-difference Hessian engine (package `fd`)

This file gives a shallow embedding, over exact rational arithmetic, of
`fd/hessian.go`: the public `Hessian` entry point, its serial path
(`hessianSerial`), its concurrent path (`hessianConcurrent`, embedded by its
deterministic denotation: every sink cell and every neighbour-table slot has a
single writer whose value depends only on immutable shared state, so the
schedule cannot change any written value; we thread one scratch buffer through
the jobs in producer order), and the job producer (`hessianProducer`).

Go `float64` values are modelled as `ℚ` (exact field arithmetic); Go slices as
`List ℚ`; the external symmetric-matrix sink `mat64.SymDense` is modelled from
the spec as an upper-triangle store with mirrored reads; the external inputs
`runtime.GOMAXPROCS` and the default step constant `Central2nd.Step` are
parameters (`gomaxprocs`, `defaultStep`).

Mutation is modelled by explicit state passing: the state `SState` carries the
caller's point `x`, the scratch buffer `xcopy`, the neighbour table `neigh`,
the ordered list of sink writes, and the ordered list of points at which the
user function was evaluated.
-/

/-- Go's `copy(dst, src)`: the first `min (len dst) (len src)` elements of
`dst` are overwritten with those of `src`; the rest of `dst` is unchanged. -/
def goCopy (dst src : List ℚ) : List ℚ :=
  src.take (min dst.length src.length) ++ dst.drop (min dst.length src.length)

/-- Go's `l[i] += v` (and `l[i] -= v` via a negative `v`) on a slice. -/
def addAt (l : List ℚ) (i : ℕ) (v : ℚ) : List ℚ :=
  l.set i (l.getD i 0 + v)

/-- Modelled from the spec: the external collaborator `mat64.SymDense`
(not part of this repository), an n×n symmetric sink storing the upper
triangle, with reads at (j,i) mirroring (i,j). -/
structure SymDense where
  n : ℕ
  data : List ℚ
deriving DecidableEq

/-- Canonical storage index of entry (i, j): row `min i j`, column `max i j`. -/
def skey (n i j : ℕ) : ℕ := min i j * n + max i j

/-- Modelled from the spec: `mat64.NewSymDense(n, nil)`, a fresh zeroed n×n
symmetric matrix. -/
def SymDense.new (n : ℕ) : SymDense := ⟨n, List.replicate (n * n) 0⟩

/-- Modelled from the spec: `SetSym(i, j, v)` writes entry (i, j) (the engine
only calls it with i ≤ j). -/
def SymDense.setSym (d : SymDense) (i j : ℕ) (v : ℚ) : SymDense :=
  ⟨d.n, d.data.set (skey d.n i j) v⟩

/-- Modelled from the spec: `At(i, j)` reads entry (i, j), mirrored across the
diagonal. -/
def SymDense.At (d : SymDense) (i j : ℕ) : ℚ :=
  d.data.getD (skey d.n i j) 0

/-- A recorded sink write: ((i, j), value) for a `dst.SetSym(i, j, value)`. -/
abbrev HWrite := (ℕ × ℕ) × ℚ

/-- Replay a list of recorded `SetSym` writes into a sink. -/
def applyWrites (d : SymDense) (ws : List HWrite) : SymDense :=
  ws.foldl (fun d w => d.setSym w.1.1 w.1.2 w.2) d

/-- `HessianSettings` from `fd/hessian.go`. -/
structure HessianSettings where
  OriginKnown : Bool
  OriginValue : ℚ
  Step : ℚ
  Concurrent : Bool
deriving DecidableEq

/-- The engine state: the caller's point `x`, the scratch buffer `xcopy`, the
neighbour table `neigh`, the ordered sink writes, and the ordered evaluation
points handed to the user function. -/
structure SState where
  x : List ℚ
  xcopy : List ℚ
  neigh : List ℚ
  writes : List HWrite
  evals : List (List ℚ)
deriving DecidableEq

/-- One iteration of the neighbour loop (`hessian.go` lines 66–70, and the
phase-A worker body lines 101–105): `copy(xcopy, x); xcopy[i] += step;
neigh[i] = f(xcopy)`. -/
def neighStep (f : List ℚ → ℚ) (step : ℚ) (s : SState) (i : ℕ) : SState :=
  let xc := addAt (goCopy s.xcopy s.x) i step
  { s with xcopy := xc, neigh := s.neigh.set i (f xc), evals := s.evals ++ [xc] }

/-- One iteration of the serial inner (off-diagonal) loop (`hessian.go`
lines 76–82). -/
def offStep (f : List ℚ → ℚ) (step origin : ℚ) (i : ℕ) (s : SState) (j : ℕ) :
    SState :=
  let xc := addAt (addAt (goCopy s.xcopy s.x) i step) j step
  let fij := f xc
  { s with
    xcopy := xc
    writes := s.writes ++
      [((i, j), ((fij - s.neigh.getD j 0) / step -
                 (s.neigh.getD i 0 - origin) / step) / step)]
    evals := s.evals ++ [xc] }

/-- One iteration of the serial outer loop (`hessian.go` lines 71–83): the
diagonal entry at (i, i) followed by the inner loop over j = i+1 … n-1. -/
def diagStep (f : List ℚ → ℚ) (step origin : ℚ) (s : SState) (i : ℕ) : SState :=
  let xc := addAt (goCopy s.xcopy s.x) i (-step)
  let fii := f xc
  let s1 : SState :=
    { s with
      xcopy := xc
      writes := s.writes ++
        [((i, i), ((s.neigh.getD i 0 - origin) / step -
                   (origin - fii) / step) / step)]
      evals := s.evals ++ [xc] }
  (List.range' (i + 1) (s.x.length - (i + 1))).foldl (offStep f step origin i) s1

/-- `hessianSerial` (`hessian.go` lines 63–84): phase A fills the neighbour
table, phase B writes the diagonal and off-diagonal entries. Both loops range
over the indices of `xcopy`, as in the source. -/
def hessianSerial (f : List ℚ → ℚ) (x xcopy : List ℚ) (step origin : ℚ) :
    SState :=
  let s0 : SState := ⟨x, xcopy, List.replicate x.length 0, [], []⟩
  let s1 := (List.range xcopy.length).foldl (neighStep f step) s0
  (List.range xcopy.length).foldl (diagStep f step origin) s1

/-- `hessianProducer` (`hessian.go` lines 141–155): the jobs, in emission
order — for each i, the diagonal job (i, i) then (i, j) for j = i+1 … n-1. -/
def hessianProducer (n : ℕ) : List (ℕ × ℕ) :=
  (List.range n).flatMap fun i =>
    (i, i) :: (List.range' (i + 1) (n - (i + 1))).map fun j => (i, j)

/-- One phase-B worker job (`hessian.go` lines 120–134): perturb a private
copy of `x`, evaluate, and write one sink cell. The concurrent path's entry
formulas are the reassociated `(fx-origin+neigh[i]-origin)/step/step` and
`(fx-neigh[j]+origin-neigh[i])/step/step` of the source. -/
def concJobStep (f : List ℚ → ℚ) (step origin : ℚ) (s : SState)
    (job : ℕ × ℕ) : SState :=
  let xc0 := goCopy s.xcopy s.x
  let xc := if job.1 = job.2 then addAt xc0 job.1 (-step)
            else addAt (addAt xc0 job.1 step) job.2 step
  let fx := f xc
  let w : HWrite :=
    if job.1 = job.2 then
      ((job.1, job.1), (fx - origin + s.neigh.getD job.1 0 - origin) / step / step)
    else
      ((job.1, job.2), (fx - s.neigh.getD job.2 0 + origin - s.neigh.getD job.1 0) / step / step)
  { s with xcopy := xc, writes := s.writes ++ [w], evals := s.evals ++ [xc] }

/-- `hessianConcurrent` (`hessian.go` lines 86–139), by its deterministic
denotation: each neighbour slot and each sink cell has a single writer whose
value depends only on the immutable `x`, `step`, `origin` and (in phase B) the
fully populated neighbour table, so the written values are independent of the
schedule; we process the jobs in producer order with one scratch buffer (each
worker's buffer is freshly allocated and re-copied from `x` before each use,
so buffer identity cannot affect any value). -/
def hessianConcurrent (f : List ℚ → ℚ) (x : List ℚ) (step origin : ℚ) :
    SState :=
  let s0 : SState := ⟨x, List.replicate x.length 0, List.replicate x.length 0, [], []⟩
  let s1 := (List.range x.length).foldl (neighStep f step) s0
  (hessianProducer x.length).foldl (concJobStep f step origin) s1

/-- The settings actually used: a nil settings pointer means the zero value
(`hessian.go` lines 30–32). -/
def settingsOf (settings : Option HessianSettings) : HessianSettings :=
  settings.getD ⟨false, 0, 0, false⟩

/-- Step resolution (`hessian.go` lines 34–37): the supplied step, or the
default central-difference constant when the supplied step is zero. -/
def stepUsed (defaultStep : ℚ) (settings : Option HessianSettings) : ℚ :=
  if (settingsOf settings).Step = 0 then defaultStep else (settingsOf settings).Step

/-- `Hessian` (`hessian.go` lines 21–61). External inputs are parameters:
`gomaxprocs` models `runtime.GOMAXPROCS(0)` and `defaultStep` models the
`Central2nd.Step` constant (defined elsewhere in the repository; the spec
treats it as an external tuning value). The result is the filled sink
together with the ordered sink writes and the ordered evaluation points;
a sink dimension mismatch is the `panic` of line 27. -/
def Hessian (gomaxprocs : ℕ) (defaultStep : ℚ) (dst : Option SymDense)
    (f : List ℚ → ℚ) (x : List ℚ) (settings : Option HessianSettings) :
    Except String (SymDense × List HWrite × List (List ℚ)) :=
  let n := x.length
  let d := match dst with
    | none => SymDense.new n
    | some d => d
  if d.n ≠ n then .error "hessian: mismatched matrix size"
  else
    let st := settingsOf settings
    let step := stepUsed defaultStep settings
    let expect := n + n * (n - 1) / 2
    let nWorkers := if st.Concurrent then min gomaxprocs expect else 1
    let xcopy0 : List ℚ := List.replicate n 0
    let r := if st.OriginKnown then (st.OriginValue, xcopy0, ([] : List (List ℚ)))
             else
               let xc := goCopy xcopy0 x
               (f xc, xc, [xc])
    let s := if nWorkers = 1 then hessianSerial f x r.2.1 step r.1
             else hessianConcurrent f x step r.1
    .ok (applyWrites d s.writes, s.writes, r.2.2 ++ s.evals)

/-! ## Specification-level values: the stencil points and entry formulas -/

/-- The point `x` with coordinate `i` shifted by `+step`. -/
def neighPt (x : List ℚ) (step : ℚ) (i : ℕ) : List ℚ := addAt x i step

/-- The point `x` with coordinate `i` shifted by `-step`. -/
def diagPt (x : List ℚ) (step : ℚ) (i : ℕ) : List ℚ := addAt x i (-step)

/-- The point `x` with coordinates `i` and `j` both shifted by `+step`. -/
def offPt (x : List ℚ) (step : ℚ) (i j : ℕ) : List ℚ :=
  addAt (addAt x i step) j step

/-- The origin value used by a call: the supplied `OriginValue` when
`OriginKnown`, otherwise the once-evaluated `f x`. -/
def originOf (f : List ℚ → ℚ) (x : List ℚ)
    (settings : Option HessianSettings) : ℚ :=
  if (settingsOf settings).OriginKnown then (settingsOf settings).OriginValue
  else f x

/-- The serial diagonal entry formula at (i, i). -/
def diagVal (f : List ℚ → ℚ) (x : List ℚ) (step origin : ℚ) (i : ℕ) : ℚ :=
  ((f (neighPt x step i) - origin) / step -
   (origin - f (diagPt x step i)) / step) / step

/-- The serial off-diagonal entry formula at (i, j), i < j. -/
def offVal (f : List ℚ → ℚ) (x : List ℚ) (step origin : ℚ) (i j : ℕ) : ℚ :=
  ((f (offPt x step i j) - f (neighPt x step j)) / step -
   (f (neighPt x step i) - origin) / step) / step

/-- The concurrent path's (reassociated) diagonal entry formula. -/
def concDiagVal (f : List ℚ → ℚ) (x : List ℚ) (step origin : ℚ) (i : ℕ) : ℚ :=
  (f (diagPt x step i) - origin + f (neighPt x step i) - origin) / step / step

/-- The concurrent path's (reassociated) off-diagonal entry formula. -/
def concOffVal (f : List ℚ → ℚ) (x : List ℚ) (step origin : ℚ) (i j : ℕ) : ℚ :=
  (f (offPt x step i j) - f (neighPt x step j) + origin - f (neighPt x step i)) / step / step

/-- The serial write value keyed by the entry index pair. -/
def serialVal (f : List ℚ → ℚ) (x : List ℚ) (step origin : ℚ) (p : ℕ × ℕ) : ℚ :=
  if p.1 = p.2 then diagVal f x step origin p.1 else offVal f x step origin p.1 p.2

/-- The concurrent write value keyed by the entry index pair. -/
def concVal (f : List ℚ → ℚ) (x : List ℚ) (step origin : ℚ) (p : ℕ × ℕ) : ℚ :=
  if p.1 = p.2 then concDiagVal f x step origin p.1
  else concOffVal f x step origin p.1 p.2

/-- The upper-triangle index pairs (i, j), i ≤ j < n, in row-major order. -/
def upperPairs (n : ℕ) : List (ℕ × ℕ) :=
  (List.range n).flatMap fun i => (List.range' i (n - i)).map fun j => (i, j)

/-- The stencil evaluation points of one call, in order: the n neighbour
points, then for each row i the diagonal point followed by the off-diagonal
points. -/
def stencilPts (x : List ℚ) (step : ℚ) : List (List ℚ) :=
  ((List.range x.length).map (neighPt x step)) ++
  ((List.range x.length).flatMap fun i =>
    diagPt x step i :: (List.range' (i + 1) (x.length - (i + 1))).map (offPt x step i))

/-- Whether the (optional) supplied sink is compatible with the point. -/
def dimOk (dst : Option SymDense) (x : List ℚ) : Prop :=
  match dst with
  | none => True
  | some d => d.n = x.length

/-- The sink a call operates on: the supplied one, or a fresh zeroed n×n. -/
def sinkOf (dst : Option SymDense) (x : List ℚ) : SymDense :=
  match dst with
  | none => SymDense.new x.length
  | some d => d

/-- A well-formed sink stores exactly n×n backing entries. -/
def SymDense.WF (d : SymDense) : Prop := d.data.length = d.n * d.n

/-- The neighbour table of one call: slot i holds f(x + step·eᵢ). -/
def neighTable (f : List ℚ → ℚ) (x : List ℚ) (step : ℚ) : List ℚ :=
  (List.range x.length).map fun i => f (neighPt x step i)

/-- The writes of one call (either path), keyed by upper-triangle pair. -/
def hessianWrites (defaultStep : ℚ) (f : List ℚ → ℚ) (x : List ℚ)
    (settings : Option HessianSettings) : List HWrite :=
  (upperPairs x.length).map fun p =>
    (p, serialVal f x (stepUsed defaultStep settings) (originOf f x settings) p)

/-- The serial diagonal write value read off a neighbour table `nl`. -/
def diagW (f : List ℚ → ℚ) (x : List ℚ) (step origin : ℚ) (nl : List ℚ)
    (i : ℕ) : ℚ :=
  ((nl.getD i 0 - origin) / step - (origin - f (diagPt x step i)) / step) / step

/-- The serial off-diagonal write value read off a neighbour table `nl`. -/
def offW (f : List ℚ → ℚ) (x : List ℚ) (step origin : ℚ) (nl : List ℚ)
    (i j : ℕ) : ℚ :=
  ((f (offPt x step i j) - nl.getD j 0) / step -
   (nl.getD i 0 - origin) / step) / step

/-- The evaluation point of one phase-B job. -/
def concEvalPt (x : List ℚ) (step : ℚ) (p : ℕ × ℕ) : List ℚ :=
  if p.1 = p.2 then diagPt x step p.1 else offPt x step p.1 p.2

/-- The concurrent write value of one phase-B job, read off a table `nl`. -/
def concW (f : List ℚ → ℚ) (x : List ℚ) (step origin : ℚ) (nl : List ℚ)
    (p : ℕ × ℕ) : ℚ :=
  if p.1 = p.2 then
    (f (diagPt x step p.1) - origin + nl.getD p.1 0 - origin) / step / step
  else
    (f (offPt x step p.1 p.2) - nl.getD p.2 0 + origin - nl.getD p.1 0) / step / step

/-! ## A deep embedding of the two per-entry formulas

The serial and concurrent paths write the same exact-arithmetic value to each
entry, but the source expressions they evaluate associate the operations
differently. To state that, the two diagonal formulas are transcribed as
expression trees: variable 0 is the entry's extra evaluation (`fii` / `fx`),
1 is `origin`, 2 is `neigh[i]`, 3 is `step`. -/

inductive AExpr where
  | var : ℕ → AExpr
  | add : AExpr → AExpr → AExpr
  | sub : AExpr → AExpr → AExpr
  | div : AExpr → AExpr → AExpr
deriving DecidableEq

def AExpr.eval (env : ℕ → ℚ) : AExpr → ℚ
  | .var k => env k
  | .add a b => a.eval env + b.eval env
  | .sub a b => a.eval env - b.eval env
  | .div a b => a.eval env / b.eval env

/-- The serial diagonal expression, `hessian.go` line 75:
`((neigh[i]-origin)/step - (origin-fii)/step) / step`. -/
def serialDiagExpr : AExpr :=
  .div (.sub (.div (.sub (.var 2) (.var 1)) (.var 3))
             (.div (.sub (.var 1) (.var 0)) (.var 3)))
       (.var 3)

/-- The concurrent diagonal expression, `hessian.go` line 130:
`(fx - origin + neigh[i] - origin) / step / step`. -/
def concDiagExpr : AExpr :=
  .div (.div (.sub (.add (.sub (.var 0) (.var 1)) (.var 2)) (.var 1)) (.var 3))
       (.var 3)

/-- A sample environment: fii = 1, origin = 2, neigh[i] = 5, step = 7. -/
def diagEnv : ℕ → ℚ := fun k => [(1 : ℚ), 2, 5, 7].getD k 0

/-- A test function (f(x) = x₀²) used by the concrete witnesses. -/
def fQ : List ℚ → ℚ := fun l => l.getD 0 0 * l.getD 0 0

/-- A test function (f(x) = x₀² − x₁²) used by the concrete witnesses. -/
def fS : List ℚ → ℚ := fun l => l.getD 0 0 * l.getD 0 0 - l.getD 1 0 * l.getD 1 0

/-! ## Basic lemmas about the slice primitives -/

theorem goCopy_length (dst src : List ℚ) : (goCopy dst src).length = dst.length := by
  simp [goCopy]

theorem goCopy_eq_of_length (dst src : List ℚ) (h : dst.length = src.length) :
    goCopy dst src = src := by
  simp [goCopy, h]

theorem addAt_length (l : List ℚ) (i : ℕ) (v : ℚ) :
    (addAt l i v).length = l.length := by
  simp [addAt]

theorem getD_set_ne (l : List ℚ) (i j : ℕ) (v : ℚ) (h : i ≠ j) :
    (l.set i v).getD j 0 = l.getD j 0 := by
  simp [List.getD_eq_getElem?_getD, List.getElem?_set_ne h]

theorem getD_set_self (l : List ℚ) (i : ℕ) (v : ℚ) (h : i < l.length) :
    (l.set i v).getD i 0 = v := by
  simp [List.getD_eq_getElem?_getD, List.getElem?_set_self, h]

theorem neighTable_getD (f : List ℚ → ℚ) (x : List ℚ) (step : ℚ) (k : ℕ)
    (hk : k < x.length) : (neighTable f x step).getD k 0 = f (neighPt x step k) := by
  simp [neighTable, List.getD_eq_getElem?_getD, List.getElem?_map,
    List.getElem?_range hk]

theorem neighTable_length (f : List ℚ → ℚ) (x : List ℚ) (step : ℚ) :
    (neighTable f x step).length = x.length := by
  simp [neighTable]

/-! ## Set-fold lemmas (the neighbour table is filled one disjoint slot at a
time; re-setting a slot writes the same value, so membership suffices) -/

theorem foldl_set_length (g : ℕ → ℚ) (l : List ℕ) (init : List ℚ) :
    (l.foldl (fun nl i => nl.set i (g i)) init).length = init.length := by
  induction l generalizing init with
  | nil => rfl
  | cons a t ih => simp [List.foldl_cons, ih]

theorem foldl_set_getD_not_mem (g : ℕ → ℚ) (l : List ℕ) (init : List ℚ) (k : ℕ)
    (hk : k ∉ l) :
    (l.foldl (fun nl i => nl.set i (g i)) init).getD k 0 = init.getD k 0 := by
  induction l generalizing init with
  | nil => rfl
  | cons a t ih =>
    simp only [List.foldl_cons]
    rw [ih _ (fun h => hk (List.mem_cons_of_mem _ h))]
    exact getD_set_ne _ _ _ _ (fun h => hk (h ▸ List.mem_cons_self a t))

theorem foldl_set_getD_mem (g : ℕ → ℚ) (l : List ℕ) (init : List ℚ) (k : ℕ)
    (hk : k < init.length) (hmem : k ∈ l) :
    (l.foldl (fun nl i => nl.set i (g i)) init).getD k 0 = g k := by
  induction l generalizing init with
  | nil => cases hmem
  | cons a t ih =>
    simp only [List.foldl_cons]
    by_cases ht : k ∈ t
    · exact ih _ (by simpa using hk) ht
    · have hak : a = k := by
        rcases List.mem_cons.mp hmem with h | h
        · exact h.symm
        · exact absurd h ht
      subst hak
      rw [foldl_set_getD_not_mem _ _ _ _ ht]
      exact getD_set_self _ _ _ hk

theorem foldl_set_range_eq_map (g : ℕ → ℚ) (n : ℕ) :
    (List.range n).foldl (fun nl i => nl.set i (g i)) (List.replicate n 0) =
      (List.range n).map g := by
  apply List.ext_getElem
  · simp [foldl_set_length]
  · intro k h1 h2
    have hk : k < n := by simpa using h2
    have hd : ((List.range n).foldl (fun nl i => nl.set i (g i))
        (List.replicate n 0)).getD k 0 = g k :=
      foldl_set_getD_mem g _ _ k (by simpa using hk) (List.mem_range.mpr hk)
    have hm : (((List.range n).map g)).getD k 0 = g k := by
      simp [List.getD_eq_getElem?_getD, List.getElem?_map, List.getElem?_range hk]
    rw [← List.getD_eq_getElem _ 0 h1, ← List.getD_eq_getElem _ 0 h2, hd, hm]

/-! ## Phase A: the neighbour loop fills the table with f(x + step·eᵢ) -/

theorem neighFold_spec (f : List ℚ → ℚ) (step : ℚ) (x : List ℚ) (l : List ℕ)
    (s : SState) (hx : s.x = x) (hlen : s.xcopy.length = x.length) :
    (l.foldl (neighStep f step) s).x = x ∧
    (l.foldl (neighStep f step) s).xcopy.length = x.length ∧
    (l.foldl (neighStep f step) s).neigh =
      l.foldl (fun nl i => nl.set i (f (neighPt x step i))) s.neigh ∧
    (l.foldl (neighStep f step) s).writes = s.writes ∧
    (l.foldl (neighStep f step) s).evals = s.evals ++ l.map (neighPt x step) := by
  induction l generalizing s with
  | nil => exact ⟨hx, hlen, rfl, rfl, by simp⟩
  | cons a t ih =>
    have hgc : goCopy s.xcopy s.x = x := by
      rw [hx]; exact goCopy_eq_of_length _ _ (by rw [hlen])
    have hs' : neighStep f step s a =
        { s with
          xcopy := neighPt x step a
          neigh := s.neigh.set a (f (neighPt x step a))
          evals := s.evals ++ [neighPt x step a] } := by
      simp [neighStep, hgc, neighPt]
    obtain ⟨h1, h2, h3, h4, h5⟩ := ih
      ({ s with
          xcopy := neighPt x step a
          neigh := s.neigh.set a (f (neighPt x step a))
          evals := s.evals ++ [neighPt x step a] })
      (by simpa using hx) (by simp [neighPt, addAt_length, hx])
    refine ⟨?_, ?_, ?_, ?_, ?_⟩ <;> simp only [List.foldl_cons, hs']
    · exact h1
    · exact h2
    · simpa using h3
    · simpa using h4
    · rw [h5]; simp

/-! ## Phase B: the entry loops, generically over a fixed neighbour table -/

theorem offFold_spec (f : List ℚ → ℚ) (step origin : ℚ) (x : List ℚ)
    (nl : List ℚ) (i : ℕ) (l : List ℕ) (s : SState) (hx : s.x = x)
    (hn : s.neigh = nl) (hlen : s.xcopy.length = x.length) :
    (l.foldl (offStep f step origin i) s).x = x ∧
    (l.foldl (offStep f step origin i) s).xcopy.length = x.length ∧
    (l.foldl (offStep f step origin i) s).neigh = nl ∧
    (l.foldl (offStep f step origin i) s).writes =
      s.writes ++ l.map (fun j => ((i, j), offW f x step origin nl i j)) ∧
    (l.foldl (offStep f step origin i) s).evals =
      s.evals ++ l.map (offPt x step i) := by
  induction l generalizing s with
  | nil => exact ⟨hx, hlen, hn, by simp, by simp⟩
  | cons a t ih =>
    have hgc : goCopy s.xcopy s.x = x := by
      rw [hx]; exact goCopy_eq_of_length _ _ (by rw [hlen])
    have hs' : offStep f step origin i s a =
        { s with
          xcopy := offPt x step i a
          writes := s.writes ++ [((i, a), offW f x step origin nl i a)]
          evals := s.evals ++ [offPt x step i a] } := by
      simp [offStep, hgc, offPt, offW, hn]
    obtain ⟨h1, h2, h3, h4, h5⟩ := ih
      ({ s with
          xcopy := offPt x step i a
          writes := s.writes ++ [((i, a), offW f x step origin nl i a)]
          evals := s.evals ++ [offPt x step i a] })
      (by simpa using hx) (by simpa using hn)
      (by simp [offPt, addAt_length, hx])
    refine ⟨?_, ?_, ?_, ?_, ?_⟩ <;> simp only [List.foldl_cons, hs']
    · exact h1
    · exact h2
    · exact h3
    · rw [h4]; simp
    · rw [h5]; simp

theorem diagFold_spec (f : List ℚ → ℚ) (step origin : ℚ) (x : List ℚ)
    (nl : List ℚ) (l : List ℕ) (s : SState) (hx : s.x = x)
    (hn : s.neigh = nl) (hlen : s.xcopy.length = x.length) :
    (l.foldl (diagStep f step origin) s).x = x ∧
    (l.foldl (diagStep f step origin) s).xcopy.length = x.length ∧
    (l.foldl (diagStep f step origin) s).neigh = nl ∧
    (l.foldl (diagStep f step origin) s).writes =
      s.writes ++ l.flatMap (fun i =>
        ((i, i), diagW f x step origin nl i) ::
          (List.range' (i + 1) (x.length - (i + 1))).map
            (fun j => ((i, j), offW f x step origin nl i j))) ∧
    (l.foldl (diagStep f step origin) s).evals =
      s.evals ++ l.flatMap (fun i =>
        diagPt x step i ::
          (List.range' (i + 1) (x.length - (i + 1))).map (offPt x step i)) := by
  induction l generalizing s with
  | nil => exact ⟨hx, hlen, hn, by simp, by simp⟩
  | cons a t ih =>
    have hgc : goCopy s.xcopy s.x = x := by
      rw [hx]; exact goCopy_eq_of_length _ _ (by rw [hlen])
    have hgc2 : goCopy s.xcopy x = x := by rw [hx] at hgc; exact hgc
    have hs1 : diagStep f step origin s a =
        (List.range' (a + 1) (x.length - (a + 1))).foldl (offStep f step origin a)
          ({ s with
            xcopy := diagPt x step a
            writes := s.writes ++ [((a, a), diagW f x step origin nl a)]
            evals := s.evals ++ [diagPt x step a] }) := by
      simp [diagStep, hgc, hgc2, diagPt, diagW, hn, hx]
    obtain ⟨g1, g2, g3, g4, g5⟩ := offFold_spec f step origin x nl a
      (List.range' (a + 1) (x.length - (a + 1)))
      ({ s with
        xcopy := diagPt x step a
        writes := s.writes ++ [((a, a), diagW f x step origin nl a)]
        evals := s.evals ++ [diagPt x step a] })
      (by simpa using hx) (by simpa using hn)
      (by simp [diagPt, addAt_length, hx])
    obtain ⟨h1, h2, h3, h4, h5⟩ := ih
      ((List.range' (a + 1) (x.length - (a + 1))).foldl (offStep f step origin a)
        ({ s with
          xcopy := diagPt x step a
          writes := s.writes ++ [((a, a), diagW f x step origin nl a)]
          evals := s.evals ++ [diagPt x step a] }))
      g1 g3 g2
    refine ⟨?_, ?_, ?_, ?_, ?_⟩ <;> simp only [List.foldl_cons, hs1]
    · exact h1
    · exact h2
    · exact h3
    · rw [h4, g4]; simp
    · rw [h5, g5]; simp

/-! ## The concurrent path's job fold -/

theorem concEvalPt_length (x : List ℚ) (step : ℚ) (p : ℕ × ℕ) :
    (concEvalPt x step p).length = x.length := by
  rcases p with ⟨i, j⟩
  by_cases h : i = j <;> simp [concEvalPt, h, diagPt, offPt, addAt_length]

theorem concFold_spec (f : List ℚ → ℚ) (step origin : ℚ) (x : List ℚ)
    (nl : List ℚ) (jl : List (ℕ × ℕ)) (s : SState) (hx : s.x = x)
    (hn : s.neigh = nl) (hlen : s.xcopy.length = x.length) :
    (jl.foldl (concJobStep f step origin) s).x = x ∧
    (jl.foldl (concJobStep f step origin) s).xcopy.length = x.length ∧
    (jl.foldl (concJobStep f step origin) s).neigh = nl ∧
    (jl.foldl (concJobStep f step origin) s).writes =
      s.writes ++ jl.map (fun p => (p, concW f x step origin nl p)) ∧
    (jl.foldl (concJobStep f step origin) s).evals =
      s.evals ++ jl.map (concEvalPt x step) := by
  induction jl generalizing s with
  | nil => exact ⟨hx, hlen, hn, by simp, by simp⟩
  | cons p t ih =>
    have hgc : goCopy s.xcopy s.x = x := by
      rw [hx]; exact goCopy_eq_of_length _ _ (by rw [hlen])
    have hs' : concJobStep f step origin s p =
        { s with
          xcopy := concEvalPt x step p
          writes := s.writes ++ [(p, concW f x step origin nl p)]
          evals := s.evals ++ [concEvalPt x step p] } := by
      rcases p with ⟨i, j⟩
      by_cases h : i = j
      · subst h
        simp [concJobStep, hgc, concEvalPt, concW, hn, diagPt]
      · simp [concJobStep, hgc, concEvalPt, concW, h, hn, offPt]
    obtain ⟨h1, h2, h3, h4, h5⟩ := ih
      ({ s with
        xcopy := concEvalPt x step p
        writes := s.writes ++ [(p, concW f x step origin nl p)]
        evals := s.evals ++ [concEvalPt x step p] })
      (by simpa using hx) (by simpa using hn)
      (by simp [concEvalPt_length])
    refine ⟨?_, ?_, ?_, ?_, ?_⟩ <;> simp only [List.foldl_cons, hs']
    · exact h1
    · exact h2
    · exact h3
    · rw [h4]; simp
    · rw [h5]; simp

/-! ## Structural lemmas about the job order and the write lists -/

theorem flatMap_congr {α β : Type} (l : List α) {F G : α → List β}
    (h : ∀ a ∈ l, F a = G a) : l.flatMap F = l.flatMap G := by
  induction l with
  | nil => rfl
  | cons a t ih =>
    simp only [List.flatMap_cons]
    rw [h a (List.mem_cons_self a t), ih (fun b hb => h b (List.mem_cons_of_mem _ hb))]

theorem range'_head (i n : ℕ) (h : i < n) :
    List.range' i (n - i) = i :: List.range' (i + 1) (n - (i + 1)) := by
  have : n - i = (n - (i + 1)) + 1 := by omega
  rw [this]
  simpa using List.range'_succ i (n - (i + 1)) 1

/-- The producer's job list is exactly the upper-triangle pairs in row-major
order. -/
theorem hessianProducer_eq_upperPairs (n : ℕ) :
    hessianProducer n = upperPairs n := by
  unfold hessianProducer upperPairs
  apply flatMap_congr
  intro i hi
  rw [range'_head i n (List.mem_range.mp hi), List.map_cons]

theorem mem_upperPairs {n : ℕ} {p : ℕ × ℕ} :
    p ∈ upperPairs n ↔ p.1 ≤ p.2 ∧ p.2 < n := by
  rcases p with ⟨a, b⟩
  simp only [upperPairs, List.mem_flatMap, List.mem_map, List.mem_range,
    List.mem_range'_1, Prod.mk.injEq]
  constructor
  · rintro ⟨i, hi, j, ⟨hj1, hj2⟩, rfl, rfl⟩
    exact ⟨hj1, by omega⟩
  · rintro ⟨hab, hb⟩
    exact ⟨a, by omega, b, ⟨hab, by omega⟩, rfl, rfl⟩

/-- The serial and the concurrent entry formulas agree in exact arithmetic
(the numerators are equal by ring reasoning, and `a/s - b/s = (a-b)/s`). -/
theorem concVal_eq_serialVal (f : List ℚ → ℚ) (x : List ℚ) (step origin : ℚ)
    (p : ℕ × ℕ) : concVal f x step origin p = serialVal f x step origin p := by
  rcases p with ⟨i, j⟩
  by_cases h : i = j
  · subst h
    have h1 : concVal f x step origin (i, i) = concDiagVal f x step origin i := by
      simp [concVal]
    have h2 : serialVal f x step origin (i, i) = diagVal f x step origin i := by
      simp [serialVal]
    rw [h1, h2]
    unfold concDiagVal diagVal
    rw [div_sub_div_same]
    have h3 : f (diagPt x step i) - origin + f (neighPt x step i) - origin =
        f (neighPt x step i) - origin - (origin - f (diagPt x step i)) := by ring
    rw [h3]
  · have h1 : concVal f x step origin (i, j) = concOffVal f x step origin i j := by
      simp [concVal, h]
    have h2 : serialVal f x step origin (i, j) = offVal f x step origin i j := by
      simp [serialVal, h]
    rw [h1, h2]
    unfold concOffVal offVal
    rw [div_sub_div_same]
    have h3 : f (offPt x step i j) - f (neighPt x step j) + origin - f (neighPt x step i) =
        f (offPt x step i j) - f (neighPt x step j) -
          (f (neighPt x step i) - origin) := by ring
    rw [h3]

/-- The serial write list in closed form: upper-triangle keys paired with the
serial entry formulas. -/
theorem serialRaw_eq (f : List ℚ → ℚ) (x : List ℚ) (step origin : ℚ) :
    ((List.range x.length).flatMap fun i =>
      ((i, i), diagW f x step origin (neighTable f x step) i) ::
        (List.range' (i + 1) (x.length - (i + 1))).map
          (fun j => ((i, j), offW f x step origin (neighTable f x step) i j))) =
    (upperPairs x.length).map
      (fun p => (p, serialVal f x step origin p)) := by
  unfold upperPairs
  rw [List.map_flatMap]
  apply flatMap_congr
  intro i hi
  have hin : i < x.length := List.mem_range.mp hi
  rw [range'_head i x.length hin, List.map_cons, List.map_cons]
  congr 1
  · simp only [serialVal, if_pos rfl, diagVal, diagW, Prod.mk.injEq]
    rw [neighTable_getD f x step i hin]
    simp
  · rw [List.map_map]
    apply List.map_congr_left
    intro j hj
    have hjr := List.mem_range'_1.mp hj
    have hij : i ≠ j := by omega
    have hjn : j < x.length := by omega
    simp only [Function.comp_apply, serialVal, if_neg hij, offVal, offW,
      Prod.mk.injEq]
    rw [neighTable_getD f x step i hin, neighTable_getD f x step j hjn]
    simp

/-- The concurrent write list in closed form: the same keys, with the
concurrent entry formulas. -/
theorem concRaw_eq (f : List ℚ → ℚ) (x : List ℚ) (step origin : ℚ) :
    ((hessianProducer x.length).map
      (fun p => (p, concW f x step origin (neighTable f x step) p))) =
    (upperPairs x.length).map
      (fun p => (p, concVal f x step origin p)) := by
  rw [hessianProducer_eq_upperPairs]
  apply List.map_congr_left
  intro p hp
  obtain ⟨hab, hb⟩ := mem_upperPairs.mp hp
  rcases p with ⟨i, j⟩
  by_cases h : i = j
  · subst h
    simp only [concW, concVal, concDiagVal, if_pos rfl, Prod.mk.injEq]
    rw [neighTable_getD f x step i hb]
    simp
  · simp only [concW, concVal, concOffVal, if_neg h, Prod.mk.injEq]
    have hin : i < x.length := by simp at hab hb ⊢; omega
    rw [neighTable_getD f x step i hin, neighTable_getD f x step j hb]
    simp

/-- The phase-B evaluation points, job by job, equal the serial phase-B
evaluation points. -/
theorem concEvalPts_eq (x : List ℚ) (step : ℚ) :
    (hessianProducer x.length).map (concEvalPt x step) =
    ((List.range x.length).flatMap fun i =>
      diagPt x step i ::
        (List.range' (i + 1) (x.length - (i + 1))).map (offPt x step i)) := by
  unfold hessianProducer
  rw [List.map_flatMap]
  apply flatMap_congr
  intro i hi
  rw [List.map_cons, List.map_map]
  congr 1
  · simp [concEvalPt]
  · apply List.map_congr_left
    intro j hj
    have hjr := List.mem_range'_1.mp hj
    have hij : i ≠ j := by omega
    simp [concEvalPt, hij]

/-! ## Closed forms for both execution paths -/

theorem hessianSerial_spec (f : List ℚ → ℚ) (x xcopy : List ℚ)
    (step origin : ℚ) (h : xcopy.length = x.length) :
    (hessianSerial f x xcopy step origin).x = x ∧
    (hessianSerial f x xcopy step origin).writes =
      (upperPairs x.length).map (fun p => (p, serialVal f x step origin p)) ∧
    (hessianSerial f x xcopy step origin).evals = stencilPts x step := by
  have hdef : hessianSerial f x xcopy step origin =
      (List.range xcopy.length).foldl (diagStep f step origin)
        ((List.range xcopy.length).foldl (neighStep f step)
          ⟨x, xcopy, List.replicate x.length 0, [], []⟩) := rfl
  rw [hdef, h]
  obtain ⟨a1, a2, a3, a4, a5⟩ := neighFold_spec f step x (List.range x.length)
    ⟨x, xcopy, List.replicate x.length 0, [], []⟩ rfl h
  have a3' : ((List.range x.length).foldl (neighStep f step)
      ⟨x, xcopy, List.replicate x.length 0, [], []⟩).neigh =
      neighTable f x step := by
    rw [a3]
    exact foldl_set_range_eq_map (fun i => f (neighPt x step i)) x.length
  obtain ⟨b1, b2, b3, b4, b5⟩ := diagFold_spec f step origin x
    (neighTable f x step) (List.range x.length) _ a1 a3' a2
  refine ⟨b1, ?_, ?_⟩
  · rw [b4, a4]
    simpa using serialRaw_eq f x step origin
  · rw [b5, a5]
    simp [stencilPts]

theorem hessianConcurrent_spec (f : List ℚ → ℚ) (x : List ℚ)
    (step origin : ℚ) :
    (hessianConcurrent f x step origin).x = x ∧
    (hessianConcurrent f x step origin).writes =
      (upperPairs x.length).map (fun p => (p, concVal f x step origin p)) ∧
    (hessianConcurrent f x step origin).evals = stencilPts x step := by
  have hdef : hessianConcurrent f x step origin =
      (hessianProducer x.length).foldl (concJobStep f step origin)
        ((List.range x.length).foldl (neighStep f step)
          ⟨x, List.replicate x.length 0, List.replicate x.length 0, [], []⟩) := rfl
  rw [hdef]
  obtain ⟨a1, a2, a3, a4, a5⟩ := neighFold_spec f step x (List.range x.length)
    ⟨x, List.replicate x.length 0, List.replicate x.length 0, [], []⟩ rfl (by simp)
  have a3' : ((List.range x.length).foldl (neighStep f step)
      ⟨x, List.replicate x.length 0, List.replicate x.length 0, [], []⟩).neigh =
      neighTable f x step := by
    rw [a3]
    exact foldl_set_range_eq_map (fun i => f (neighPt x step i)) x.length
  obtain ⟨b1, b2, b3, b4, b5⟩ := concFold_spec f step origin x
    (neighTable f x step) (hessianProducer x.length) _ a1 a3' a2
  refine ⟨b1, ?_, ?_⟩
  · rw [b4, a4]
    simpa using concRaw_eq f x step origin
  · rw [b5, a5, concEvalPts_eq]
    simp [stencilPts]

/-- The two entry-formula tables agree pointwise, so both paths produce the
same write list. -/
theorem concWrites_eq_serialWrites (f : List ℚ → ℚ) (x : List ℚ)
    (step origin : ℚ) :
    (upperPairs x.length).map (fun p => (p, concVal f x step origin p)) =
    (upperPairs x.length).map (fun p => (p, serialVal f x step origin p)) :=
  List.map_congr_left fun p _ => by rw [concVal_eq_serialVal]

/-! ## The caller's point is never written (explicit-state frame lemmas) -/

theorem neighFold_x (f : List ℚ → ℚ) (step : ℚ) (l : List ℕ) (s : SState) :
    (l.foldl (neighStep f step) s).x = s.x := by
  induction l generalizing s with
  | nil => rfl
  | cons a t ih => rw [List.foldl_cons, ih]; rfl

theorem offFold_x (f : List ℚ → ℚ) (step origin : ℚ) (i : ℕ) (l : List ℕ)
    (s : SState) : (l.foldl (offStep f step origin i) s).x = s.x := by
  induction l generalizing s with
  | nil => rfl
  | cons a t ih => rw [List.foldl_cons, ih]; rfl

theorem diagFold_x (f : List ℚ → ℚ) (step origin : ℚ) (l : List ℕ)
    (s : SState) : (l.foldl (diagStep f step origin) s).x = s.x := by
  induction l generalizing s with
  | nil => rfl
  | cons a t ih =>
    rw [List.foldl_cons, ih, diagStep, offFold_x]

theorem concFold_x (f : List ℚ → ℚ) (step origin : ℚ) (jl : List (ℕ × ℕ))
    (s : SState) : (jl.foldl (concJobStep f step origin) s).x = s.x := by
  induction jl generalizing s with
  | nil => rfl
  | cons a t ih => rw [List.foldl_cons, ih]; rfl

theorem hessianSerial_x (f : List ℚ → ℚ) (x xcopy : List ℚ)
    (step origin : ℚ) : (hessianSerial f x xcopy step origin).x = x := by
  have hdef : hessianSerial f x xcopy step origin =
      (List.range xcopy.length).foldl (diagStep f step origin)
        ((List.range xcopy.length).foldl (neighStep f step)
          ⟨x, xcopy, List.replicate x.length 0, [], []⟩) := rfl
  rw [hdef, diagFold_x, neighFold_x]

theorem hessianConcurrent_x (f : List ℚ → ℚ) (x : List ℚ)
    (step origin : ℚ) : (hessianConcurrent f x step origin).x = x := by
  have hdef : hessianConcurrent f x step origin =
      (hessianProducer x.length).foldl (concJobStep f step origin)
        ((List.range x.length).foldl (neighStep f step)
          ⟨x, List.replicate x.length 0, List.replicate x.length 0, [], []⟩) := rfl
  rw [hdef, concFold_x, neighFold_x]

/-! ## Unfolding the entry point -/

theorem Hessian_def (P : ℕ) (D : ℚ) (dst : Option SymDense) (f : List ℚ → ℚ)
    (x : List ℚ) (sts : Option HessianSettings) :
    Hessian P D dst f x sts =
      if (sinkOf dst x).n ≠ x.length then
        .error "hessian: mismatched matrix size"
      else
        let r := if (settingsOf sts).OriginKnown
          then ((settingsOf sts).OriginValue, List.replicate x.length (0 : ℚ),
                ([] : List (List ℚ)))
          else (f (goCopy (List.replicate x.length 0) x),
                goCopy (List.replicate x.length 0) x,
                [goCopy (List.replicate x.length 0) x])
        let s := if (if (settingsOf sts).Concurrent
                     then min P (x.length + x.length * (x.length - 1) / 2)
                     else 1) = 1
          then hessianSerial f x r.2.1 (stepUsed D sts) r.1
          else hessianConcurrent f x (stepUsed D sts) r.1
        .ok (applyWrites (sinkOf dst x) s.writes, s.writes, r.2.2 ++ s.evals) := by
  cases dst <;> rfl

/-! ## Replaying the writes: sink lookup -/

theorem applyWrites_n (d : SymDense) (ws : List HWrite) :
    (applyWrites d ws).n = d.n := by
  induction ws generalizing d with
  | nil => rfl
  | cons w t ih =>
    show (applyWrites (d.setSym w.1.1 w.1.2 w.2) t).n = d.n
    rw [ih]
    rfl

theorem applyWrites_data (d : SymDense) (ws : List HWrite) :
    (applyWrites d ws).data =
      ws.foldl (fun dt w => dt.set (skey d.n w.1.1 w.1.2) w.2) d.data := by
  induction ws generalizing d with
  | nil => rfl
  | cons w t ih =>
    show (applyWrites (d.setSym w.1.1 w.1.2 w.2) t).data = _
    rw [ih]
    rfl

theorem foldl_setp_length (ps : List (ℕ × ℚ)) (init : List ℚ) :
    (ps.foldl (fun dt p => dt.set p.1 p.2) init).length = init.length := by
  induction ps generalizing init with
  | nil => rfl
  | cons p t ih => simp [List.foldl_cons, ih]

theorem foldl_setp_getD_not_key (ps : List (ℕ × ℚ)) (init : List ℚ) (k : ℕ)
    (h : ∀ p ∈ ps, p.1 ≠ k) :
    (ps.foldl (fun dt p => dt.set p.1 p.2) init).getD k 0 = init.getD k 0 := by
  induction ps generalizing init with
  | nil => rfl
  | cons p t ih =>
    simp only [List.foldl_cons]
    rw [ih _ (fun q hq => h q (List.mem_cons_of_mem _ hq))]
    exact getD_set_ne _ _ _ _ (h p (List.mem_cons_self p t))

theorem foldl_setp_getD (ps : List (ℕ × ℚ)) (init : List ℚ) (k : ℕ) (v : ℚ)
    (hk : k < init.length) (hmem : (k, v) ∈ ps)
    (huniq : ∀ p ∈ ps, p.1 = k → p.2 = v) :
    (ps.foldl (fun dt p => dt.set p.1 p.2) init).getD k 0 = v := by
  induction ps generalizing init with
  | nil => cases hmem
  | cons p t ih =>
    simp only [List.foldl_cons]
    by_cases hpk : p.1 = k
    · have hv : p.2 = v := huniq p (List.mem_cons_self p t) hpk
      by_cases hmem2 : (k, v) ∈ t
      · exact ih _ (by simpa using hk) hmem2
          (fun q hq => huniq q (List.mem_cons_of_mem _ hq))
      · have hnk : ∀ q ∈ t, q.1 ≠ k := by
          intro q hq hqk
          have hqv : q.2 = v := huniq q (List.mem_cons_of_mem _ hq) hqk
          apply hmem2
          have hq2 : q = (k, v) := by
            rcases q with ⟨q1, q2⟩
            simp only [Prod.mk.injEq]
            exact ⟨hqk, hqv⟩
          rwa [hq2] at hq
        rw [foldl_setp_getD_not_key t _ k hnk, hpk, hv]
        exact getD_set_self _ _ _ hk
    · have hmem2 : (k, v) ∈ t := by
        rcases List.mem_cons.mp hmem with hh | hh
        · exfalso; apply hpk; rw [← hh]
        · exact hh
      exact ih _ (by simpa using hk) hmem2
        (fun q hq => huniq q (List.mem_cons_of_mem _ hq))

theorem skey_upper (n i j : ℕ) (hij : i ≤ j) : skey n i j = i * n + j := by
  simp [skey, min_eq_left hij, max_eq_right hij]

theorem skey_lt (n i j : ℕ) (hij : i ≤ j) (hj : j < n) : skey n i j < n * n := by
  rw [skey_upper n i j hij]
  have hi1 : i + 1 ≤ n := by omega
  have h5 : (i + 1) * n ≤ n * n := mul_le_mul_right' hi1 n
  have e1 : (i + 1) * n = i * n + n := by ring
  linarith

theorem rowcol_inj (n a b c e : ℕ) (h2 : b < n) (h4 : e < n)
    (h : a * n + b = c * n + e) : a = c ∧ b = e := by
  have ha : a = c := by
    by_contra hne
    rcases Nat.lt_or_ge a c with hlt | hge
    · have h5 : (a + 1) * n ≤ c * n := mul_le_mul_right' (by omega) n
      have e1 : (a + 1) * n = a * n + n := by ring
      linarith
    · have hgt : c < a := by omega
      have h5 : (c + 1) * n ≤ a * n := mul_le_mul_right' (by omega) n
      have e1 : (c + 1) * n = c * n + n := by ring
      linarith
  subst ha
  exact ⟨rfl, Nat.add_left_cancel h⟩

/-- Replaying the write list of one call into a well-formed sink puts the
value of each upper-triangle entry where the mirrored read finds it. -/
theorem applyWrites_At (d : SymDense) (val : ℕ × ℕ → ℚ) (i j : ℕ)
    (hwf : d.WF) (hij : i ≤ j) (hj : j < d.n) :
    (applyWrites d ((upperPairs d.n).map (fun p => (p, val p)))).At i j =
      val (i, j) := by
  rw [SymDense.At, applyWrites_n, applyWrites_data]
  rw [List.foldl_map]
  have hfold : (upperPairs d.n).foldl
      (fun dt p => dt.set (skey d.n p.1 p.2) (val p)) d.data =
      ((upperPairs d.n).map (fun p => (skey d.n p.1 p.2, val p))).foldl
        (fun dt q => dt.set q.1 q.2) d.data := by
    rw [List.foldl_map]
  rw [hfold]
  apply foldl_setp_getD
  · rw [hwf]
    exact skey_lt d.n i j hij hj
  · exact List.mem_map.mpr ⟨(i, j), mem_upperPairs.mpr ⟨hij, hj⟩, rfl⟩
  · intro q hq hqk
    obtain ⟨p, hp, rfl⟩ := List.mem_map.mp hq
    obtain ⟨hp1, hp2⟩ := mem_upperPairs.mp hp
    rw [skey_upper d.n p.1 p.2 hp1, skey_upper d.n i j hij] at hqk
    obtain ⟨ha, hb⟩ := rowcol_inj d.n p.1 p.2 i j hp2 hj hqk
    have hpij : p = (i, j) := by
      rcases p with ⟨p1, p2⟩
      simp only [Prod.mk.injEq]
      exact ⟨ha, hb⟩
    rw [hpij]

/-! ## The master lemma: every successful call, on either path -/

theorem Hessian_ok (P : ℕ) (D : ℚ) (dst : Option SymDense) (f : List ℚ → ℚ)
    (x : List ℚ) (sts : Option HessianSettings) (h : dimOk dst x) :
    Hessian P D dst f x sts = .ok
      (applyWrites (sinkOf dst x) (hessianWrites D f x sts),
       hessianWrites D f x sts,
       (if (settingsOf sts).OriginKnown then [] else [x]) ++
         stencilPts x (stepUsed D sts)) := by
  have hd : (sinkOf dst x).n = x.length := by
    cases dst with
    | none => rfl
    | some d => exact h
  rw [Hessian_def, if_neg (by simp [hd])]
  have hgcx : goCopy (List.replicate x.length (0 : ℚ)) x = x :=
    goCopy_eq_of_length _ _ (by simp)
  cases hOK : (settingsOf sts).OriginKnown with
  | false =>
    simp only [hOK, Bool.false_eq_true, if_false, hgcx]
    have ho : originOf f x sts = f x := by simp [originOf, hOK]
    by_cases hw : (if (settingsOf sts).Concurrent
        then min P (x.length + x.length * (x.length - 1) / 2) else 1) = 1
    · rw [if_pos hw]
      obtain ⟨s1, s2, s3⟩ := hessianSerial_spec f x x (stepUsed D sts) (f x) rfl
      rw [s2, s3]
      simp only [hessianWrites, ho]
    · rw [if_neg hw]
      obtain ⟨s1, s2, s3⟩ := hessianConcurrent_spec f x (stepUsed D sts) (f x)
      rw [s2, s3, concWrites_eq_serialWrites]
      simp only [hessianWrites, ho]
  | true =>
    simp only [hOK, if_true]
    have ho : originOf f x sts = (settingsOf sts).OriginValue := by
      simp [originOf, hOK]
    by_cases hw : (if (settingsOf sts).Concurrent
        then min P (x.length + x.length * (x.length - 1) / 2) else 1) = 1
    · rw [if_pos hw]
      obtain ⟨s1, s2, s3⟩ := hessianSerial_spec f x (List.replicate x.length 0)
        (stepUsed D sts) ((settingsOf sts).OriginValue) (by simp)
      rw [s2, s3]
      simp only [hessianWrites, ho]
    · rw [if_neg hw]
      obtain ⟨s1, s2, s3⟩ :=
        hessianConcurrent_spec f x (stepUsed D sts) ((settingsOf sts).OriginValue)
      rw [s2, s3, concWrites_eq_serialWrites]
      simp only [hessianWrites, ho]

/-! ## Each upper-triangle cell is written exactly once -/

theorem nodup_upperPairs (n : ℕ) : (upperPairs n).Nodup := by
  unfold upperPairs
  apply List.nodup_flatMap.mpr
  constructor
  · intro i hi
    apply List.Nodup.map
    · intro a b hab
      simpa using hab
    · exact List.nodup_range' _ _
  · have hp : (List.range n).Pairwise (· ≠ ·) := List.nodup_range n
    apply hp.imp
    intro a b hab
    intro p hpa hpb
    obtain ⟨j, hj, hja⟩ := List.mem_map.mp hpa
    obtain ⟨k, hk, hkb⟩ := List.mem_map.mp hpb
    apply hab
    have : (a, j) = (b, k) := by rw [hja, hkb]
    exact (Prod.mk.injEq ..).mp this |>.1

theorem countP_eq_one_of_nodup_mem {α : Type} [DecidableEq α] (l : List α)
    (p : α) (hnd : l.Nodup) (hmem : p ∈ l) :
    l.countP (fun q => q = p) = 1 := by
  induction l with
  | nil => cases hmem
  | cons a t ih =>
    rcases List.mem_cons.mp hmem with hh | hh
    · have hnp : ¬ p ∈ t := by rw [hh]; exact (List.nodup_cons.mp hnd).1
      simp only [List.countP_cons]
      rw [List.countP_eq_zero.mpr (fun q hq => by
        simp only [decide_eq_true_eq]
        intro hqp
        exact hnp (hqp ▸ hq))]
      have hap : a = p := hh.symm
      simp [hap]
    · have hap : a ≠ p := by
        intro hh2
        exact (List.nodup_cons.mp hnd).1 (hh2 ▸ hh)
      simp only [List.countP_cons, decide_eq_true_eq]
      rw [ih (List.nodup_cons.mp hnd).2 hh]
      simp [hap]

theorem findIdxs_length_eq_countP {α : Type} [DecidableEq α] (l : List α)
    (p : α) :
    (l.findIdxs (fun q => q = p)).length = l.countP (fun q => q = p) := by
  induction l with
  | nil => rfl
  | cons a t ih =>
    by_cases hap : a = p
    · simp [List.findIdxs_cons, List.countP_cons, hap, ih]
    · simp [List.findIdxs_cons, List.countP_cons, hap, ih]

/-- "Written exactly once": a pair occurs in the key list at exactly one
position iff it is an upper-triangle pair (and at none otherwise). -/
theorem upperPairs_exactly_once (n : ℕ) (p : ℕ × ℕ) :
    ((upperPairs n).findIdxs (fun q => q = p)).length =
      if p.1 ≤ p.2 ∧ p.2 < n then 1 else 0 := by
  rw [findIdxs_length_eq_countP]
  by_cases h : p.1 ≤ p.2 ∧ p.2 < n
  · rw [if_pos h]
    exact countP_eq_one_of_nodup_mem _ _ (nodup_upperPairs n)
      (mem_upperPairs.mpr h)
  · rw [if_neg h]
    apply List.countP_eq_zero.mpr
    intro q hq
    simp only [decide_eq_true_eq]
    intro hqp
    exact h (mem_upperPairs.mp (hqp ▸ hq))

theorem hessianWrites_keys (D : ℚ) (f : List ℚ → ℚ) (x : List ℚ)
    (sts : Option HessianSettings) :
    (hessianWrites D f x sts).map Prod.fst = upperPairs x.length := by
  unfold hessianWrites
  rw [List.map_map]
  have hc : (Prod.fst ∘ fun p : ℕ × ℕ =>
      (p, serialVal f x (stepUsed D sts) (originOf f x sts) p)) = id := rfl
  rw [hc, List.map_id]

/-! ## Counting the evaluations -/

theorem tri_step (n : ℕ) : n + n * (n - 1) / 2 = (n + 1) * n / 2 := by
  cases n with
  | zero => rfl
  | succ m =>
    have h : (m + 1 + 1) * (m + 1) = (m + 1) * (m + 1 - 1) + 2 * (m + 1) := by
      simp only [Nat.add_sub_cancel]
      ring
    rw [h, Nat.add_mul_div_left _ _ (by norm_num : 0 < 2)]
    exact Nat.add_comm _ _

theorem sum_range_sub (n : ℕ) :
    ((List.range n).map (fun i => n - i)).sum = n + n * (n - 1) / 2 := by
  induction n with
  | zero => rfl
  | succ n ih =>
    rw [List.range_succ_eq_map]
    simp only [List.map_cons, List.map_map, List.sum_cons, Nat.sub_zero]
    have hf : ((List.range n).map ((fun i => n + 1 - i) ∘ Nat.succ)) =
        (List.range n).map (fun i => n - i) := by
      apply List.map_congr_left
      intro a _
      simp only [Function.comp_apply]
      omega
    rw [hf, ih, tri_step n]
    simp [Nat.add_comm]

theorem stencilPts_length (x : List ℚ) (step : ℚ) :
    (stencilPts x step).length =
      x.length + (x.length + x.length * (x.length - 1) / 2) := by
  unfold stencilPts
  rw [List.length_append, List.length_map, List.length_range]
  congr 1
  rw [List.length_flatMap]
  have hb : ((List.range x.length).map (fun i =>
      (diagPt x step i ::
        (List.range' (i + 1) (x.length - (i + 1))).map (offPt x step i)).length)) =
      (List.range x.length).map (fun i => x.length - i) := by
    apply List.map_congr_left
    intro a ha
    have := List.mem_range.mp ha
    simp only [List.length_cons, List.length_map, List.length_range']
    omega
  calc ((List.range x.length).map fun a => ((fun i =>
          diagPt x step i ::
            (List.range' (i + 1) (x.length - (i + 1))).map (offPt x step i)) a).length).sum
      = ((List.range x.length).map (fun i => x.length - i)).sum := by rw [hb]
    _ = x.length + x.length * (x.length - 1) / 2 := sum_range_sub x.length

/-! ## Reading one entry of the result -/

theorem sinkOf_n (dst : Option SymDense) (x : List ℚ) (h : dimOk dst x) :
    (sinkOf dst x).n = x.length := by
  cases dst with
  | none => rfl
  | some d => exact h

theorem Hessian_At (P : ℕ) (D : ℚ) (dst : Option SymDense) (f : List ℚ → ℚ)
    (x : List ℚ) (sts : Option HessianSettings) (i j : ℕ) (hdim : dimOk dst x)
    (hwf : (sinkOf dst x).WF) (hij : i ≤ j) (hj : j < x.length) :
    (Hessian P D dst f x sts).map (fun r => r.1.At i j) =
      .ok (serialVal f x (stepUsed D sts) (originOf f x sts) (i, j)) := by
  rw [Hessian_ok P D dst f x sts hdim]
  have hd : (sinkOf dst x).n = x.length := sinkOf_n dst x hdim
  have hW : hessianWrites D f x sts =
      (upperPairs (sinkOf dst x).n).map
        (fun p => (p, serialVal f x (stepUsed D sts) (originOf f x sts) p)) := by
    rw [hd]
    rfl
  have := applyWrites_At (sinkOf dst x)
    (fun p => serialVal f x (stepUsed D sts) (originOf f x sts) p) i j hwf hij
    (by rw [hd]; exact hj)
  rw [hW]
  simp only [Except.map]
  rw [this]

/-! ## The claims -/

/-- C1 (counterexample): the claim also asserts that the chosen path never
changes the order of operations inside a single entry's formula; it does. The
two diagonal formulas, transcribed from `hessian.go` lines 75 and 130, are
distinct expression trees (the concurrent one reassociates the serial one),
as the sample environment spells out. -/
theorem c1_order_of_operations_differs :
    serialDiagExpr ≠ concDiagExpr ∧
    serialDiagExpr.eval diagEnv = ((5 - 2) / 7 - (2 - 1) / 7) / 7 ∧
    concDiagExpr.eval diagEnv = (1 - 2 + 5 - 2) / 7 / 7 := by
  refine ⟨by decide, ?_, ?_⟩
  · norm_num [serialDiagExpr, AExpr.eval, diagEnv]
  · norm_num [concDiagExpr, AExpr.eval, diagEnv]

/-- C1 (amended): on the same function, point and settings, the serial and
concurrent paths produce identical results — entry values, write sequence and
evaluation points — under exact (rational) arithmetic; the order of operations
inside an entry's formula does differ between the paths (see the
counterexample), so the equality is one of exact values, not of evaluation
order. -/
theorem c1_paths_agree_exact (P : ℕ) (D : ℚ) (dst : Option SymDense)
    (f : List ℚ → ℚ) (x : List ℚ) (ok : Bool) (ov s : ℚ) :
    Hessian P D dst f x (some ⟨ok, ov, s, true⟩) =
      Hessian P D dst f x (some ⟨ok, ov, s, false⟩) := by
  by_cases h : dimOk dst x
  · rw [Hessian_ok P D dst f x _ h, Hessian_ok P D dst f x _ h]
    rfl
  · have hd : (sinkOf dst x).n ≠ x.length := by
      cases dst with
      | none => exact absurd (by constructor) h
      | some d => exact h
    rw [Hessian_def, Hessian_def, if_pos hd, if_pos hd]

/-- C2: on either path, the diagonal entry written at (i, i) is
`((neigh[i] − origin)/step − (origin − fii)/step)/step` with
`neigh[i] = f(x + step·eᵢ)`, `fii = f(x − step·eᵢ)`, and `origin` the supplied
origin value or the once-evaluated `f x`. -/
theorem c2_diagonal_formula (P : ℕ) (D : ℚ) (dst : Option SymDense)
    (f : List ℚ → ℚ) (x : List ℚ) (sts : Option HessianSettings) (i : ℕ)
    (hdim : dimOk dst x) (hwf : (sinkOf dst x).WF) (hi : i < x.length) :
    (Hessian P D dst f x sts).map (fun r => r.1.At i i) =
      .ok (((f (neighPt x (stepUsed D sts) i) - originOf f x sts) / stepUsed D sts -
            (originOf f x sts - f (diagPt x (stepUsed D sts) i)) / stepUsed D sts) /
           stepUsed D sts) := by
  rw [Hessian_At P D dst f x sts i i hdim hwf (le_refl i) hi]
  simp [serialVal, diagVal]

theorem c2_diagonal_formula_witness :
    (Hessian 1 1 none fQ [3] none).map (fun r => r.1.At 0 0) =
      .ok (((fQ (neighPt [3] (stepUsed 1 none) 0) - originOf fQ [3] none) / stepUsed 1 none -
            (originOf fQ [3] none - fQ (diagPt [3] (stepUsed 1 none) 0)) / stepUsed 1 none) /
           stepUsed 1 none) :=
  c2_diagonal_formula 1 1 none fQ [3] none 0 trivial rfl (by decide)

/-- C3: on either path, the off-diagonal entry written at (i, j), i < j, is
`((fij − neigh[j])/step − (neigh[i] − origin)/step)/step` with
`fij = f(x + step·eᵢ + step·eⱼ)`. -/
theorem c3_offdiagonal_formula (P : ℕ) (D : ℚ) (dst : Option SymDense)
    (f : List ℚ → ℚ) (x : List ℚ) (sts : Option HessianSettings) (i j : ℕ)
    (hdim : dimOk dst x) (hwf : (sinkOf dst x).WF) (hij : i < j)
    (hj : j < x.length) :
    (Hessian P D dst f x sts).map (fun r => r.1.At i j) =
      .ok (((f (offPt x (stepUsed D sts) i j) - f (neighPt x (stepUsed D sts) j)) /
              stepUsed D sts -
            (f (neighPt x (stepUsed D sts) i) - originOf f x sts) / stepUsed D sts) /
           stepUsed D sts) := by
  rw [Hessian_At P D dst f x sts i j hdim hwf (le_of_lt hij) hj]
  have hne : i ≠ j := ne_of_lt hij
  simp [serialVal, offVal, hne]

theorem c3_offdiagonal_formula_witness :
    (Hessian 1 1 none fS [1, 2] none).map (fun r => r.1.At 0 1) =
      .ok (((fS (offPt [1, 2] (stepUsed 1 none) 0 1) - fS (neighPt [1, 2] (stepUsed 1 none) 1)) /
              stepUsed 1 none -
            (fS (neighPt [1, 2] (stepUsed 1 none) 0) - originOf fS [1, 2] none) / stepUsed 1 none) /
           stepUsed 1 none) :=
  c3_offdiagonal_formula 1 1 none fS [1, 2] none 0 1 trivial rfl (by decide) (by decide)

/-- C4: a supplied sink whose declared dimension differs from the point's
length makes `Hessian` fail fatally, with an outcome independent of the
function and the settings — so before any evaluation of `f` and before any
write to the sink. -/
theorem c4_dimension_mismatch (P : ℕ) (D : ℚ) (f g : List ℚ → ℚ) (x : List ℚ)
    (sts sts2 : Option HessianSettings) (d : SymDense) (h : d.n ≠ x.length) :
    Hessian P D (some d) f x sts = .error "hessian: mismatched matrix size" ∧
    Hessian P D (some d) f x sts = Hessian P D (some d) g x sts2 := by
  have h1 : ∀ (f2 : List ℚ → ℚ) (sts3 : Option HessianSettings),
      Hessian P D (some d) f2 x sts3 = .error "hessian: mismatched matrix size" := by
    intro f2 sts3
    rw [Hessian_def,
      if_pos (show (sinkOf (some d) x).n ≠ x.length from h)]
  exact ⟨h1 f sts, by rw [h1 f sts, h1 g sts2]⟩

theorem c4_dimension_mismatch_witness :
    Hessian 1 1 (some ⟨1, [0]⟩) fQ [] none = .error "hessian: mismatched matrix size" ∧
    Hessian 1 1 (some ⟨1, [0]⟩) fQ [] none =
      Hessian 1 1 (some ⟨1, [0]⟩) (fun _ => 5) [] (some ⟨true, 2, 3, true⟩) :=
  c4_dimension_mismatch 1 1 fQ (fun _ => 5) [] none (some ⟨true, 2, 3, true⟩)
    ⟨1, [0]⟩ (by decide)

/-- C5: neither execution path ever writes the caller's point: the final
state's `x` component is exactly the input point, on the serial path (for any
scratch buffer) and on the concurrent path. -/
theorem c5_point_never_mutated (f : List ℚ → ℚ) (x xcopy : List ℚ)
    (step origin : ℚ) :
    (hessianSerial f x xcopy step origin).x = x ∧
    (hessianConcurrent f x step origin).x = x :=
  ⟨hessianSerial_x f x xcopy step origin, hessianConcurrent_x f x step origin⟩

/-- C6: every sink write of a successful call has an upper-triangle key
(i ≤ j, j < n), and each upper-triangle pair is written at exactly one
position of the write sequence — on both paths, which produce the very same
write list `hessianWrites`. -/
theorem c6_upper_triangle_once (P : ℕ) (D : ℚ) (dst : Option SymDense)
    (f : List ℚ → ℚ) (x : List ℚ) (sts : Option HessianSettings)
    (hdim : dimOk dst x) :
    (Hessian P D dst f x sts).map (fun r => r.2.1) = .ok (hessianWrites D f x sts) ∧
    (∀ w ∈ hessianWrites D f x sts, w.1.1 ≤ w.1.2 ∧ w.1.2 < x.length) ∧
    (∀ p : ℕ × ℕ,
      (((hessianWrites D f x sts).map Prod.fst).findIdxs (fun q => q = p)).length =
        if p.1 ≤ p.2 ∧ p.2 < x.length then 1 else 0) := by
  refine ⟨?_, ?_, ?_⟩
  · rw [Hessian_ok P D dst f x sts hdim]
    rfl
  · intro w hw
    unfold hessianWrites at hw
    obtain ⟨p, hp, rfl⟩ := List.mem_map.mp hw
    simpa using mem_upperPairs.mp hp
  · intro p
    rw [hessianWrites_keys]
    exact upperPairs_exactly_once x.length p

theorem c6_upper_triangle_once_witness :
    (Hessian 1 1 none fS [1, 2] none).map (fun r => r.2.1) =
      .ok (hessianWrites 1 fS [1, 2] none) ∧
    (∀ w ∈ hessianWrites 1 fS [1, 2] none, w.1.1 ≤ w.1.2 ∧ w.1.2 < 2) ∧
    (∀ p : ℕ × ℕ,
      (((hessianWrites 1 fS [1, 2] none).map Prod.fst).findIdxs (fun q => q = p)).length =
        if p.1 ≤ p.2 ∧ p.2 < 2 then 1 else 0) :=
  c6_upper_triangle_once 1 1 none fS [1, 2] none trivial

/-- C7: supplying `OriginKnown = true` with `OriginValue = f x` yields a
result sink identical, entry for entry, to letting the engine evaluate the
origin internally (`OriginKnown = false`, any ignored `OriginValue`), for the
same step and concurrency settings. -/
theorem c7_known_origin_equals_internal (P : ℕ) (D : ℚ) (dst : Option SymDense)
    (f : List ℚ → ℚ) (x : List ℚ) (s : ℚ) (c : Bool) (ov : ℚ) :
    (Hessian P D dst f x (some ⟨true, f x, s, c⟩)).map (fun r => r.1) =
      (Hessian P D dst f x (some ⟨false, ov, s, c⟩)).map (fun r => r.1) := by
  by_cases h : dimOk dst x
  · rw [Hessian_ok P D dst f x _ h, Hessian_ok P D dst f x _ h]
    rfl
  · have hd : (sinkOf dst x).n ≠ x.length := by
      cases dst with
      | none => exact absurd (by constructor) h
      | some d => exact h
    rw [Hessian_def, Hessian_def, if_pos hd, if_pos hd]

/-- C8: a successful call hands the function exactly
n + (n + n·(n−1)/2) points when the origin is known, and exactly one more
(the single origin evaluation) otherwise; in particular for n = 0 there are
no stencil evaluations and at most one call to f. -/
theorem c8_eval_count (P : ℕ) (D : ℚ) (dst : Option SymDense)
    (f : List ℚ → ℚ) (x : List ℚ) (sts : Option HessianSettings)
    (hdim : dimOk dst x) :
    (Hessian P D dst f x sts).map (fun r => r.2.2.length) =
      .ok ((if (settingsOf sts).OriginKnown then 0 else 1) +
        (x.length + (x.length + x.length * (x.length - 1) / 2))) := by
  rw [Hessian_ok P D dst f x sts hdim]
  simp only [Except.map]
  congr 1
  rw [List.length_append, stencilPts_length]
  cases h : (settingsOf sts).OriginKnown <;> simp [h]

theorem c8_eval_count_witness :
    ((Hessian 1 1 none fQ [] none).map (fun r => r.2.2.length) = .ok 1) ∧
    ((Hessian 4 1 none fS [1, 2] (some ⟨true, 0, 0, true⟩)).map
        (fun r => r.2.2.length) = .ok 5) :=
  ⟨c8_eval_count 1 1 none fQ [] none trivial,
   c8_eval_count 4 1 none fS [1, 2] (some ⟨true, 0, 0, true⟩) trivial⟩

/-- C9: the step used in every stencil evaluation is the default constant
exactly when the supplied step is zero (or settings are nil), and otherwise
the supplied step verbatim — with no positivity check: negative steps flow
into the stencil unchanged and the call still succeeds. -/
theorem c9_step_resolution (P : ℕ) (D : ℚ) (dst : Option SymDense)
    (f : List ℚ → ℚ) (x : List ℚ) (sts : Option HessianSettings)
    (hdim : dimOk dst x) :
    ((settingsOf sts).Step = 0 → stepUsed D sts = D) ∧
    ((settingsOf sts).Step ≠ 0 → stepUsed D sts = (settingsOf sts).Step) ∧
    (Hessian P D dst f x sts).map (fun r => r.2.2) =
      .ok ((if (settingsOf sts).OriginKnown then [] else [x]) ++
        stencilPts x (stepUsed D sts)) := by
  refine ⟨fun h => by simp [stepUsed, h], fun h => by simp [stepUsed, h], ?_⟩
  rw [Hessian_ok P D dst f x sts hdim]
  rfl

theorem c9_step_resolution_witness :
    ((settingsOf (some ⟨false, 0, -1, false⟩)).Step = 0 →
      stepUsed 1 (some ⟨false, 0, -1, false⟩) = 1) ∧
    ((settingsOf (some ⟨false, 0, -1, false⟩)).Step ≠ 0 →
      stepUsed 1 (some ⟨false, 0, -1, false⟩) = (settingsOf (some ⟨false, 0, -1, false⟩)).Step) ∧
    (Hessian 1 1 none fQ [2] (some ⟨false, 0, -1, false⟩)).map (fun r => r.2.2) =
      .ok ((if (settingsOf (some ⟨false, 0, -1, false⟩)).OriginKnown then [] else [[2]]) ++
        stencilPts [2] (stepUsed 1 (some ⟨false, 0, -1, false⟩))) :=
  c9_step_resolution 1 1 none fQ [2] (some ⟨false, 0, -1, false⟩) trivial

/-- C10: a nil sink means a freshly allocated zeroed n×n sink; a correctly
sized supplied sink is the one filled (the result is exactly that sink with
the call's writes replayed into it); and nil settings behave exactly like the
zero-valued settings (serial path, default step, internally evaluated
origin). -/
theorem c10_interface (P : ℕ) (D : ℚ) (f : List ℚ → ℚ) (x : List ℚ)
    (sts : Option HessianSettings) (d : SymDense) (hd : d.n = x.length) :
    (Hessian P D none f x sts =
      Hessian P D (some (SymDense.new x.length)) f x sts) ∧
    ((Hessian P D (some d) f x sts).map (fun r => r.1) =
      .ok (applyWrites d (hessianWrites D f x sts))) ∧
    (Hessian P D (some d) f x none =
      Hessian P D (some d) f x (some ⟨false, 0, 0, false⟩)) := by
  refine ⟨rfl, ?_, rfl⟩
  rw [Hessian_ok P D (some d) f x sts hd]
  rfl

theorem c10_interface_witness :
    (Hessian 1 1 none fQ [4] none = Hessian 1 1 (some (SymDense.new 1)) fQ [4] none) ∧
    ((Hessian 1 1 (some ⟨1, [0]⟩) fQ [4] none).map (fun r => r.1) =
      .ok (applyWrites ⟨1, [0]⟩ (hessianWrites 1 fQ [4] none))) ∧
    (Hessian 1 1 (some ⟨1, [0]⟩) fQ [4] none =
      Hessian 1 1 (some ⟨1, [0]⟩) fQ [4] (some ⟨false, 0, 0, false⟩)) :=
  c10_interface 1 1 fQ [4] none ⟨1, [0]⟩ (by decide)
